import Mathlib

/-!
Shallow embedding of the Ant Colony Optimization TSP solver
(`AntsColony/Pheromone.py`, `AntsColony/Ant.py`, `AntsColony/Colony.py`,
`AntsColony/Optimization.py`, `Problems/Problem.py`).

Modelling conventions:
* Python floats are modelled as rationals (`ℚ`); `float('inf')` is modelled by
  `Option ℚ` with `none` standing for infinity.
* numpy `N×N` matrices are modelled as total functions `ℕ → ℕ → ℚ`
  (only indices below `num_nodes` are ever used by the code).
* The exponents `alpha` and `beta` are floats in the source but integral in every
  shipped configuration (defaults `1.0` and `2.0`); they are modelled as `ℕ` so
  that powers stay inside `ℚ`.
* Code that can raise a Python exception returns `Except String`, the string
  naming the exception class; code with no failure path returns `.ok`
  unconditionally, which records that no exception is raised on any input.
* `np.random.choice` and `random.randint` draws are modelled by explicit
  oracle arguments (a rational draw in `[0,1)` per choice, a start node per ant).
-/

namespace ACO

/-- A single in-place update `f[i][j] += v` on a matrix modelled as a function. -/
def addAt (f : ℕ → ℕ → ℚ) (i j : ℕ) (v : ℚ) : ℕ → ℕ → ℚ :=
  fun p q => if p = i ∧ q = j then f p q + v else f p q

/-- `np.clip(r, 0.0, 1.0)`. -/
def clamp01 (r : ℚ) : ℚ := max 0 (min r 1)

/-- State of `Pheromone` (`Pheromone.py`): the `trails` matrix, the stored
evaporation rate and the default deposit amount. -/
structure Pheromone where
  num_nodes : ℕ
  trails : ℕ → ℕ → ℚ
  evaporation_rate : ℚ
  pheromone_deposit : ℚ

/-- `Pheromone.__init__`: `trails = np.full((n, n), 0.1)`, the evaporation rate
is clamped into `[0,1]`, the default deposit amount is stored as given. -/
def Pheromone.init (num_nodes : ℕ) (evaporation_rate pheromone_deposit : ℚ) :
    Pheromone :=
  { num_nodes := num_nodes
    trails := fun _ _ => 1/10
    evaporation_rate := clamp01 evaporation_rate
    pheromone_deposit := pheromone_deposit }

/-- `Pheromone.evaporate`: an explicitly supplied rate is clamped into `[0,1]`
and stored, otherwise the stored rate is used; every entry is multiplied by
`(1 - rate)`. -/
def Pheromone.evaporate (s : Pheromone) (rate : Option ℚ) : Pheromone :=
  let r := match rate with
    | some v => clamp01 v
    | none => s.evaporation_rate
  { s with evaporation_rate := r, trails := fun p q => s.trails p q * (1 - r) }

/-- The list of directed edges `Pheromone.deposit` walks for a nonempty route:
`zip(route[:-1], route[1:])`, followed by the closing edge `(route[-1], route[0])`
when `route[0] != route[-1]`. -/
def fullEdges (route : List ℕ) : List (ℕ × ℕ) :=
  route.zip route.tail ++
    (if route.headD 0 ≠ route.getLastD 0 then [(route.getLastD 0, route.headD 0)] else [])

/-- One loop body of `Pheromone.deposit`: `trails[i, j] += amount` then
`trails[j, i] += amount`. -/
def depositStep (amount : ℚ) (g : ℕ → ℕ → ℚ) (e : ℕ × ℕ) : ℕ → ℕ → ℚ :=
  addAt (addAt g e.1 e.2 amount) e.2 e.1 amount

/-- The Python idiom `pheromone_deposit or self.pheromone_deposit`: an absent
argument (`None`) and a supplied `0.0` are both falsy, so the stored default is
used in both cases. -/
def effectiveDeposit (s : Pheromone) (pheromone_deposit : Option ℚ) : ℚ :=
  match pheromone_deposit with
  | some v => if v ≠ 0 then v else s.pheromone_deposit
  | none => s.pheromone_deposit

/-- `Pheromone.deposit`.  The source computes
`deposit_amount = (pheromone_deposit or self.pheromone_deposit) / length` first:
a `length` of exactly `0` raises `ZeroDivisionError` before any entry is touched.
The loop then adds `deposit_amount` symmetrically along every consecutive edge,
and along `(route[-1], route[0])` when the route is not closed; on an empty
route the final `route[0]` subscript raises `IndexError` (the loop has touched
nothing at that point). -/
def Pheromone.deposit (s : Pheromone) (route : List ℕ) (length : ℚ)
    (pheromone_deposit : Option ℚ) : Except String Pheromone :=
  if length = 0 then .error "ZeroDivisionError" else
  let amount := effectiveDeposit s pheromone_deposit / length
  match route with
  | [] => .error "IndexError"
  | _ :: _ => .ok { s with trails := (fullEdges route).foldl (depositStep amount) s.trails }

/-- How many times the deposit loop over the edge list `es` hits the entry
`(p, q)`: each directed edge `(i, j)` contributes to `(i, j)` and to `(j, i)`
(a self-loop `(i, i)` hence contributes twice to `(i, i)`). -/
def edgeMult (es : List (ℕ × ℕ)) (p q : ℕ) : ℕ :=
  (es.map (fun e =>
    (if e.1 = p ∧ e.2 = q then 1 else 0) + (if e.2 = p ∧ e.1 = q then 1 else 0))).sum

lemma addAt_apply (f : ℕ → ℕ → ℚ) (i j : ℕ) (v : ℚ) (p q : ℕ) :
    addAt f i j v p q = f p q + (if i = p ∧ j = q then v else 0) := by
  simp only [addAt]
  by_cases h : p = i ∧ q = j
  · simp [h.1, h.2]
  · have h' : ¬(i = p ∧ j = q) := by
      intro hc; exact h ⟨hc.1.symm, hc.2.symm⟩
    simp [h, h']

lemma depositStep_apply (amount : ℚ) (g : ℕ → ℕ → ℚ) (e : ℕ × ℕ) (p q : ℕ) :
    depositStep amount g e p q =
      g p q + ((if e.1 = p ∧ e.2 = q then 1 else 0) +
        (if e.2 = p ∧ e.1 = q then (1 : ℕ) else 0)) * amount := by
  simp only [depositStep, addAt_apply]
  by_cases hpq : p = q <;> by_cases h1 : e.1 = p <;> by_cases h2 : e.2 = p <;>
    by_cases h3 : e.1 = q <;> by_cases h4 : e.2 = q <;>
      simp [hpq, h1, h2, h3, h4, eq_comm] <;> ring

/-- The deposit loop adds `edgeMult es p q * amount` to the entry `(p, q)`. -/
lemma foldl_depositStep (es : List (ℕ × ℕ)) (g : ℕ → ℕ → ℚ) (amount : ℚ)
    (p q : ℕ) :
    (es.foldl (depositStep amount) g) p q = g p q + edgeMult es p q * amount := by
  induction es generalizing g with
  | nil => simp [edgeMult]
  | cons e tl ih =>
      simp only [List.foldl_cons, ih, depositStep_apply, edgeMult, List.map_cons,
        List.sum_cons]
      push_cast
      ring

lemma edgeMult_symm (es : List (ℕ × ℕ)) (p q : ℕ) :
    edgeMult es p q = edgeMult es q p := by
  simp only [edgeMult]
  congr 1
  apply List.map_congr_left
  intro e _
  by_cases hpq : p = q <;> by_cases h1 : e.1 = p <;> by_cases h2 : e.2 = p <;>
    by_cases h3 : e.1 = q <;> by_cases h4 : e.2 = q <;>
      simp [hpq, h1, h2, h3, h4, eq_comm]

/-- `Problem.get_length`: `0.0` on an empty route, otherwise the sum of the
distances along consecutive pairs plus the closing distance
`distances[route[-1], route[0]]`. -/
def get_length (dist : ℕ → ℕ → ℚ) (route : List ℕ) : ℚ :=
  if route = [] then 0
  else ((route.zip route.tail).map (fun e => dist e.1 e.2)).sum +
    dist (route.getLastD 0) (route.headD 0)

/-- The minimum of a nonempty list of rationals (`0` on the empty list, which is
never used). -/
def listMin : List ℚ → ℚ
  | [] => 0
  | [x] => x
  | x :: y :: t => min x (listMin (y :: t))

/-- `np.argmin`: the index of the first occurrence of the minimum. -/
def argminIdx : List ℚ → ℕ
  | [] => 0
  | [_] => 0
  | x :: y :: t => if x ≤ listMin (y :: t) then 0 else argminIdx (y :: t) + 1

/-- `np.random.choice(items, p=weights)` driven by one uniform draw `r ∈ [0,1)`:
inverse-CDF sampling over the weight list (the last item absorbs any leftover
mass, so a member of the list is always returned). -/
def weightedPick : List (ℕ × ℚ) → ℚ → ℕ
  | [], _ => 0
  | [(n, _)], _ => n
  | (n, w) :: e :: t, r => if r < w then n else weightedPick (e :: t) (r - w)

/-- State of `Ant` (`Ant.py`). -/
structure Ant where
  start_node : ℕ
  route : List ℕ
  visited : Finset ℕ
  total_distance : ℚ
  num_nodes : ℕ
  alpha : ℕ
  beta : ℕ

/-- `Ant.__init__`. -/
def Ant.init (start_node num_nodes : ℕ) (alpha beta : ℕ) : Ant :=
  { start_node := start_node
    route := [start_node]
    visited := {start_node}
    total_distance := 0
    num_nodes := num_nodes
    alpha := alpha
    beta := beta }

/-- `Ant.reset`: route and visited set back to just the start node, distance 0. -/
def Ant.reset (a : Ant) : Ant :=
  { a with route := [a.start_node], visited := {a.start_node}, total_distance := 0 }

/-- `self.route[-1]` (the route is nonempty whenever the source reads it). -/
def Ant.currentNode (a : Ant) : ℕ := a.route.getLastD 0

/-- `[node for node in range(self.num_nodes) if node not in self.visited]`. -/
def Ant.availableNodes (a : Ant) : List ℕ :=
  (List.range a.num_nodes).filter (fun n => n ∉ a.visited)

/-- `np.where(d > 0, (1.0 / d) ** beta, 0)` for one entry. -/
def heuristicValue (beta : ℕ) (d : ℚ) : ℚ :=
  if 0 < d then (1 / d) ^ beta else 0

/-- The selection weight `pheromones[c, j] ** alpha * heuristic(j)` of one
candidate `j`. -/
def selectionWeight (dist pher : ℕ → ℕ → ℚ) (alpha beta c j : ℕ) : ℚ :=
  pher c j ^ alpha * heuristicValue beta (dist c j)

/-- The list `probabilities = pheromone_levels ** alpha * heuristic_values`
over the available nodes, before normalization. -/
def Ant.candidateWeights (dist pher : ℕ → ℕ → ℚ) (a : Ant) : List ℚ :=
  a.availableNodes.map (selectionWeight dist pher a.alpha a.beta a.currentNode)

/-- `Ant._choose_next_node`: if every candidate weight is zero, take the nearest
available node (`available_nodes[np.argmin(distances_to_nodes)]`: first index of
the minimum, and `available_nodes` is ascending); otherwise normalize the
weights into a distribution and sample it with the draw `r`. -/
def Ant.chooseNextNode (dist pher : ℕ → ℕ → ℚ) (a : Ant) (r : ℚ) : ℕ :=
  if (a.candidateWeights dist pher).sum = 0 then
    a.availableNodes.getD (argminIdx (a.availableNodes.map (dist a.currentNode))) 0
  else
    weightedPick (a.availableNodes.zip ((a.candidateWeights dist pher).map
      (fun p => p / (a.candidateWeights dist pher).sum))) r

/-- One iteration of the `while` loop in `Ant.find_route`: choose the next node,
append it, mark it visited, accumulate the edge distance. -/
def Ant.step (dist pher : ℕ → ℕ → ℚ) (a : Ant) (r : ℚ) : Ant :=
  let next_node := a.chooseNextNode dist pher r
  let current_node := a.currentNode
  { a with route := a.route ++ [next_node]
           visited := insert next_node a.visited
           total_distance := a.total_distance + dist current_node next_node }

/-- The `while len(self.route) < self.num_nodes` loop of `Ant.find_route`,
driven by the draw oracle `rng` (draw `k` is used at loop iteration `k`).
Each iteration grows the route by one node, so `num_nodes` units of fuel are
enough for the loop to reach its exit condition exactly as the source does. -/
def Ant.findRouteLoop (dist pher : ℕ → ℕ → ℚ) (rng : ℕ → ℚ) :
    ℕ → ℕ → Ant → Ant
  | 0, _, a => a
  | fuel + 1, k, a =>
    if a.route.length < a.num_nodes then
      Ant.findRouteLoop dist pher rng fuel (k + 1) (a.step dist pher (rng k))
    else a

/-- `Ant.find_route`: reset, extend until all nodes are visited, then append the
start node and the closing edge distance `distances[route[-2], start]`. -/
def Ant.findRoute (dist pher : ℕ → ℕ → ℚ) (rng : ℕ → ℚ) (a : Ant) : Ant :=
  let a1 := Ant.findRouteLoop dist pher rng a.num_nodes 0 a.reset
  { a1 with route := a1.route ++ [a.start_node]
            total_distance := a1.total_distance + dist a1.currentNode a.start_node }

/-- The sum of `dist` along consecutive pairs of a node list (the quantity
`Ant.find_route` accumulates into `total_distance` step by step). -/
def pathLen (dist : ℕ → ℕ → ℚ) (l : List ℕ) : ℚ :=
  ((l.zip l.tail).map (fun e => dist e.1 e.2)).sum

/-- State of `Problem` (`Problems/Problem.py`) as the engine sees it: the node
count and distance matrix (file loading and coordinate parsing are external
collaborators; the loaded data is supplied directly) plus the stored ACO
parameters. -/
structure Problem where
  num_nodes : ℕ
  distances : ℕ → ℕ → ℚ
  num_ants : ℤ
  alpha : ℕ
  beta : ℕ
  evaporation_rate : ℚ
  pheromone_rate : ℚ

/-- `Problem.__init__`: every parameter is stored as given; no parameter is
validated anywhere in the body, so construction succeeds on every input. -/
def Problem.init (num_nodes : ℕ) (distances : ℕ → ℕ → ℚ) (num_ants : ℤ)
    (alpha beta : ℕ) (evaporation_rate pheromone_rate : ℚ) :
    Except String Problem :=
  .ok { num_nodes := num_nodes
        distances := distances
        num_ants := num_ants
        alpha := alpha
        beta := beta
        evaporation_rate := evaporation_rate
        pheromone_rate := pheromone_rate }

/-- Python `range(n)` for an `int` argument: empty when `n ≤ 0`. -/
def intRange (n : ℤ) : List ℕ := List.range n.toNat

/-- `Colony` state (`Colony.py`): problem, pheromones, ants, and the
best-solution tracking fields (`best_length` starts at `float('inf')`,
modelled as `none`). Timing fields are not modelled. -/
structure Colony where
  problem : Problem
  pheromones : Pheromone
  ants : List Ant
  best_route : List ℕ
  best_length : Option ℚ
  best_iteration : ℕ
  current_iteration : ℕ

/-- `Colony.__init__`: one ant per element of `range(problem.num_ants)`, each
with a start node drawn from the oracle `starts` (`random.randint`); the body
performs no validation, so construction succeeds on every input, and a
non-positive ant count yields an empty ant list. -/
def Colony.init (problem : Problem) (starts : ℕ → ℕ) : Except String Colony :=
  .ok { problem := problem
        pheromones := Pheromone.init problem.num_nodes problem.evaporation_rate
          problem.pheromone_rate
        ants := (intRange problem.num_ants).map
          (fun k => Ant.init (starts k) problem.num_nodes problem.alpha problem.beta)
        best_route := List.range problem.num_nodes
        best_length := none
        best_iteration := 0
        current_iteration := 0 }

/-- `route_length < self.best_length` where `best_length` may be `float('inf')`. -/
def ltBest (x : ℚ) : Option ℚ → Bool
  | none => true
  | some b => decide (x < b)

/-- The comparison `best_length < self.best_length` between two
possibly-infinite lengths, as in `Optimization.optimize`. -/
def ltOptQ : Option ℚ → Option ℚ → Bool
  | none, _ => false
  | some _, none => true
  | some x, some y => decide (x < y)

/-- `a ≤ b` on lengths where `none` is `float('inf')`. -/
def leOptQ : Option ℚ → Option ℚ → Bool
  | _, none => true
  | none, some _ => false
  | some x, some y => decide (x ≤ y)

/-- The per-ant body of `Colony._perform_iteration`: the ant finds a route, its
length is computed with `Problem.get_length`, and the best route/length pair is
replaced when the new length is strictly smaller. -/
def Colony.antBody (dist pher : ℕ → ℕ → ℚ) (c : Colony) (arng : Ant × (ℕ → ℚ)) :
    Colony :=
  let a' := arng.1.findRoute dist pher arng.2
  let route_length := get_length dist a'.route
  if ltBest route_length c.best_length then
    { c with best_length := some route_length
             best_route := a'.route
             best_iteration := c.current_iteration }
  else c

/-- The best-tracking effect of `Colony._perform_iteration` (one generation):
each ant constructs a route against the same pheromone snapshot and the best
solution is updated per ant.  The subsequent pheromone update and ant resets do
not touch the best-solution fields and are not modelled here. -/
def Colony.performIteration (c : Colony) (rngs : ℕ → ℕ → ℚ) : Colony :=
  let dist := c.problem.distances
  let pher := c.pheromones.trails
  c.ants.enum.foldl (fun s ka => Colony.antBody dist pher s (ka.2, rngs ka.1)) c

/-- `Optimization` driver state: `best_route` starts as `None`, `best_length`
as `float('inf')`. -/
structure Optimization where
  best_route : Option (List ℕ)
  best_length : Option ℚ

/-- One iteration of the loop in `Optimization.optimize`: run
`colony.run_iteration()` (whose best-tracking effect is
`Colony.performIteration`), then replace the driver's best route/length when
the colony's current best is strictly smaller. -/
def Optimization.optimizeStep (o : Optimization) (c : Colony) (rngs : ℕ → ℕ → ℚ) :
    Optimization × Colony :=
  let c' := c.performIteration rngs
  if ltOptQ c'.best_length o.best_length then
    ({ best_route := some c'.best_route, best_length := c'.best_length }, c')
  else (o, c')

/-- The pheromone states reachable from the uniform initial matrix by any
sequence of `evaporate` and (successful) `deposit` calls. -/
inductive Reach : Pheromone → Prop
  | init (n : ℕ) (er pd : ℚ) : Reach (Pheromone.init n er pd)
  | evap (s : Pheromone) (r : Option ℚ) : Reach s → Reach (s.evaporate r)
  | dep (s : Pheromone) (route : List ℕ) (l : ℚ) (amt : Option ℚ) (s' : Pheromone) :
      Reach s → s.deposit route l amt = .ok s' → Reach s'

/-- A successful `deposit` produces the matrix given by the edge-multiplicity
formula: entry `(p, q)` grows by `edgeMult · p q` times the effective amount
over the length. -/
lemma deposit_ok_trails (s : Pheromone) (route : List ℕ) (l : ℚ) (amt : Option ℚ)
    (s' : Pheromone) (h : s.deposit route l amt = .ok s') (p q : ℕ) :
    s'.trails p q = s.trails p q +
      edgeMult (fullEdges route) p q * (effectiveDeposit s amt / l) := by
  unfold Pheromone.deposit at h
  by_cases hl : l = 0
  · simp [hl] at h
  · rw [if_neg hl] at h
    cases route with
    | nil => simp at h
    | cons r0 t =>
        simp only [Except.ok.injEq] at h
        subst h
        exact foldl_depositStep _ _ _ p q

/-- C5: every reachable pheromone state is symmetric. -/
theorem pheromone_symmetric (s : Pheromone) (h : Reach s) (p q : ℕ) :
    s.trails p q = s.trails q p := by
  induction h with
  | init n er pd => rfl
  | evap s r _ ih =>
      show s.trails p q * _ = s.trails q p * _
      rw [ih]
  | dep s route l amt s' _ hd ih =>
      rw [deposit_ok_trails s route l amt s' hd p q,
        deposit_ok_trails s route l amt s' hd q p, ih, edgeMult_symm]

/-- Witness for C5 at a concrete reachable state. -/
theorem pheromone_symmetric_witness :
    ((Pheromone.init 3 (1/2) 1).evaporate (some (1/3))).trails 0 1 =
      ((Pheromone.init 3 (1/2) 1).evaporate (some (1/3))).trails 1 0 :=
  pheromone_symmetric _ (Reach.evap _ _ (Reach.init 3 (1/2) 1)) 0 1

/-- C6: `evaporate` with an explicit rate multiplies every entry by
`1 - clamp(r, 0, 1)`, and `evaporate(1.0)` zeroes every entry. -/
theorem evaporation_law (s : Pheromone) (r : ℚ) (p q : ℕ) :
    (s.evaporate (some r)).trails p q = s.trails p q * (1 - clamp01 r) ∧
    (s.evaporate (some 1)).trails p q = 0 := by
  refine ⟨rfl, ?_⟩
  show s.trails p q * (1 - clamp01 1) = 0
  norm_num [clamp01]

/-- C8: the tour length of an empty route is `0`. -/
theorem get_length_empty (dist : ℕ → ℕ → ℚ) : get_length dist [] = 0 := rfl

/-- Counterexample to C3: `deposit` with the negative length `-1` does not
raise; it succeeds and modifies the field (entry `(0, 1)` moves from `1/10` to
`1/10 - 4`, two symmetric additions of `2 / (-1)`). -/
theorem deposit_negative_length_accepted :
    ((Pheromone.init 3 (1/2) 2).deposit [0, 1] (-1) none).isOk = true ∧
    ((Pheromone.init 3 (1/2) 2).deposit [0, 1] (-1) none).map
      (fun s => s.trails 0 1) = .ok (1/10 - 4) := by
  constructor
  · rfl
  · show Except.ok _ = _
    norm_num [Pheromone.deposit, Pheromone.init, effectiveDeposit, fullEdges,
      depositStep, addAt]

/-- C3 as the code behaves: a length of exactly `0` raises `ZeroDivisionError`
(before any entry is touched, so the field is unchanged), while a negative
length is accepted without error. -/
theorem deposit_zero_length_raises (s : Pheromone) (route : List ℕ)
    (amt : Option ℚ) (l : ℚ) (hl : l < 0) (hr : route ≠ []) :
    s.deposit route 0 amt = .error "ZeroDivisionError" ∧
    (s.deposit route l amt).isOk = true := by
  constructor
  · simp [Pheromone.deposit]
  · unfold Pheromone.deposit
    rw [if_neg (ne_of_lt hl)]
    cases route with
    | nil => exact absurd rfl hr
    | cons r0 t => rfl

/-- Witness for `deposit_zero_length_raises`. -/
theorem deposit_zero_length_raises_witness :
    (Pheromone.init 3 (1/2) 2).deposit [0, 1] 0 none = .error "ZeroDivisionError" ∧
    ((Pheromone.init 3 (1/2) 2).deposit [0, 1] (-1) none).isOk = true :=
  deposit_zero_length_raises (Pheromone.init 3 (1/2) 2) [0, 1] none (-1)
    (by norm_num) (by simp)

/-- Counterexample to C4: an explicitly supplied amount of `0` is falsy in
Python, so the stored default (`2` here) is deposited instead of `0`: entry
`(0, 1)` moves from `1/10` to `41/10` instead of staying at `1/10 + 0 / 1`. -/
theorem deposit_zero_amount_uses_default :
    ((Pheromone.init 3 (1/2) 2).deposit [0, 1] 1 (some 0)).map
      (fun s => s.trails 0 1) = .ok (41/10) ∧ ((41 : ℚ)/10 ≠ 1/10 + 0 / 1) := by
  constructor
  · show Except.ok _ = _
    norm_num [Pheromone.deposit, Pheromone.init, effectiveDeposit, fullEdges,
      depositStep, addAt]
  · norm_num

/-- C4 as the code behaves, for nonzero supplied amounts: a successful deposit
adds `amount / length` to entry `(p, q)` once for each traversal of that edge in
either direction — once per consecutive edge `(i, j)` with `{i, j} = {p, q}`,
plus the closing edge `(route[-1], route[0])` exactly when the route is not
already closed — and leaves every entry lying on no route edge unchanged. -/
theorem deposit_adds_amount (s : Pheromone) (route : List ℕ) (l a : ℚ)
    (hl : l ≠ 0) (ha : a ≠ 0) (hr : route ≠ []) :
    ∃ s', s.deposit route l (some a) = .ok s' ∧
      (∀ p q, s'.trails p q =
        s.trails p q + edgeMult (fullEdges route) p q * (a / l)) ∧
      (∀ p q, edgeMult (fullEdges route) p q = 0 → s'.trails p q = s.trails p q) := by
  cases route with
  | nil => exact absurd rfl hr
  | cons r0 t =>
      have heff : effectiveDeposit s (some a) = a := by
        simp [effectiveDeposit, ha]
      have hdep : s.deposit (r0 :: t) l (some a) = .ok
          { s with trails := ((fullEdges (r0 :: t)).foldl
              (depositStep (effectiveDeposit s (some a) / l)) s.trails) } := by
        unfold Pheromone.deposit
        rw [if_neg hl]
      refine ⟨_, hdep, ?_, ?_⟩
      · intro p q
        simp only [foldl_depositStep, heff]
      · intro p q hm
        simp only [foldl_depositStep, hm]
        push_cast
        ring

/-- Witness for `deposit_adds_amount` at the spec's 3-node scenario
(`route = [0,1,2,0]`, `length = 3`, `amount = 1`). -/
theorem deposit_adds_amount_witness :
    ∃ s', (Pheromone.init 3 (1/2) 100).deposit [0, 1, 2, 0] 3 (some 1) = .ok s' ∧
      (∀ p q, s'.trails p q = (Pheromone.init 3 (1/2) 100).trails p q +
        edgeMult (fullEdges [0, 1, 2, 0]) p q * (1 / 3)) ∧
      (∀ p q, edgeMult (fullEdges [0, 1, 2, 0]) p q = 0 →
        s'.trails p q = (Pheromone.init 3 (1/2) 100).trails p q) :=
  deposit_adds_amount (Pheromone.init 3 (1/2) 100) [0, 1, 2, 0] 3 1
    (by norm_num) (by norm_num) (by simp)

/-- An example distance matrix used by concrete witnesses. -/
def exDist : ℕ → ℕ → ℚ := fun i j => if i = j then 0 else 1

/-- Counterexample to C9: constructing a Problem with `num_ants = 0` succeeds
(nothing raises `InvalidArgument`), and the Colony built from it is silently
created with an empty ant list. -/
theorem construction_accepts_zero_ants :
    (Problem.init 3 exDist 0 1 2 (1/2) 100).isOk = true ∧
    ((Problem.init 3 exDist 0 1 2 (1/2) 100).bind
      (fun p => Colony.init p (fun _ => 0))).map (fun c => c.ants.length) =
      .ok 0 := by
  exact ⟨rfl, rfl⟩

/-- C9 as the code behaves: neither `Problem.__init__` nor `Colony.__init__`
validates the ant count; a non-positive `num_ants` is accepted without error
and yields a colony whose ant list is empty (`range(num_ants)` is empty). -/
theorem construction_accepts_nonpositive_ants (nn : ℕ) (d : ℕ → ℕ → ℚ)
    (n : ℤ) (hn : n ≤ 0) (alpha beta : ℕ) (er pr : ℚ) (starts : ℕ → ℕ) :
    ∃ p c, Problem.init nn d n alpha beta er pr = .ok p ∧
      Colony.init p starts = .ok c ∧ c.ants = [] := by
  refine ⟨_, _, rfl, rfl, ?_⟩
  show (intRange n).map _ = []
  have h0 : n.toNat = 0 := Int.toNat_of_nonpos hn
  simp [intRange, h0]

/-- Witness for `construction_accepts_nonpositive_ants`. -/
theorem construction_accepts_nonpositive_ants_witness :
    ∃ p c, Problem.init 3 exDist (-2) 1 2 (1/2) 100 = .ok p ∧
      Colony.init p (fun _ => 0) = .ok c ∧ c.ants = [] :=
  construction_accepts_nonpositive_ants 3 exDist (-2) (by norm_num) 1 2 (1/2) 100
    (fun _ => 0)

lemma ltOptQ_trans {a b c : Option ℚ} (h1 : ltOptQ a b = true)
    (h2 : ltOptQ b c = true) : ltOptQ a c = true := by
  cases a <;> cases b <;> cases c <;> simp [ltOptQ] at * <;> linarith

lemma ltOptQ_le {a b : Option ℚ} (h : ltOptQ a b = true) : leOptQ a b = true := by
  cases a <;> cases b <;> simp [ltOptQ, leOptQ] at * <;> linarith

lemma leOptQ_refl (a : Option ℚ) : leOptQ a a = true := by
  cases a <;> simp [leOptQ]

/-- The relation one ant-body step (and hence one whole generation) induces on
the colony's best-solution fields: either nothing changed, or the tracked best
length strictly decreased. -/
def ColonyStepR (c c' : Colony) : Prop :=
  c' = c ∨ ltOptQ c'.best_length c.best_length = true

lemma ColonyStepR.trans {c c' c'' : Colony} (h1 : ColonyStepR c c')
    (h2 : ColonyStepR c' c'') : ColonyStepR c c'' := by
  cases h1 with
  | inl he => rw [he] at h2; exact h2
  | inr hl =>
      cases h2 with
      | inl he => rw [he]; exact Or.inr hl
      | inr hl' => exact Or.inr (ltOptQ_trans hl' hl)

lemma antBody_step (dist pher : ℕ → ℕ → ℚ) (c : Colony) (ar : Ant × (ℕ → ℚ)) :
    ColonyStepR c (Colony.antBody dist pher c ar) := by
  unfold Colony.antBody
  by_cases h : ltBest (get_length dist ((ar.1.findRoute dist pher ar.2)).route)
      c.best_length = true
  · rw [if_pos h]
    right
    cases hb : c.best_length with
    | none => rfl
    | some b =>
        rw [hb] at h
        simpa [ltOptQ, ltBest] using h
  · rw [if_neg h]
    exact Or.inl rfl

lemma foldl_colonyStepR (dist pher : ℕ → ℕ → ℚ) (rngs : ℕ → ℕ → ℚ) :
    ∀ (l : List (ℕ × Ant)) (c : Colony),
      ColonyStepR c (l.foldl (fun s ka => Colony.antBody dist pher s (ka.2, rngs ka.1)) c)
  | [], c => Or.inl rfl
  | ka :: t, c =>
      ColonyStepR.trans (antBody_step dist pher c (ka.2, rngs ka.1))
        (foldl_colonyStepR dist pher rngs t _)

/-- C2: one driver iteration never increases the tracked best lengths.  The
colony's `best_length` after `_perform_iteration` is at most its previous
value and its `best_route`/`best_length` pair is replaced only when a strictly
shorter route was found; the driver's `best_length` after the `optimize` loop
body is likewise non-increasing and its best pair is replaced only on strict
improvement. -/
theorem best_length_monotone (o : Optimization) (c : Colony) (rngs : ℕ → ℕ → ℚ) :
    (leOptQ (Optimization.optimizeStep o c rngs).2.best_length c.best_length = true ∧
      ((Optimization.optimizeStep o c rngs).2.best_route = c.best_route ∨
        ltOptQ (Optimization.optimizeStep o c rngs).2.best_length c.best_length = true)) ∧
    (leOptQ (Optimization.optimizeStep o c rngs).1.best_length o.best_length = true ∧
      ((Optimization.optimizeStep o c rngs).1.best_route = o.best_route ∨
        ltOptQ (Optimization.optimizeStep o c rngs).1.best_length o.best_length = true)) := by
  have hc : ColonyStepR c (c.performIteration rngs) :=
    foldl_colonyStepR _ _ rngs c.ants.enum c
  have hcol : leOptQ (c.performIteration rngs).best_length c.best_length = true ∧
      ((c.performIteration rngs).best_route = c.best_route ∨
        ltOptQ (c.performIteration rngs).best_length c.best_length = true) := by
    cases hc with
    | inl he => exact ⟨by rw [he]; exact leOptQ_refl _, Or.inl (by rw [he])⟩
    | inr hl => exact ⟨ltOptQ_le hl, Or.inr hl⟩
  unfold Optimization.optimizeStep
  by_cases h : ltOptQ (c.performIteration rngs).best_length o.best_length = true
  · rw [if_pos h]
    exact ⟨hcol, ltOptQ_le h, Or.inr h⟩
  · rw [if_neg h]
    exact ⟨hcol, leOptQ_refl _, Or.inl rfl⟩

lemma weightedPick_mem : ∀ (l : List (ℕ × ℚ)) (r : ℚ), l ≠ [] →
    ∃ p ∈ l, weightedPick l r = p.1
  | [], _, h => absurd rfl h
  | [(n, w)], _, _ => ⟨(n, w), by simp, rfl⟩
  | (n, w) :: e :: t, r, _ => by
      by_cases h : r < w
      · exact ⟨(n, w), List.mem_cons_self _ _, by simp [weightedPick, h]⟩
      · obtain ⟨p, hp, he⟩ := weightedPick_mem (e :: t) (r - w) (by simp)
        exact ⟨p, List.mem_cons_of_mem _ hp, by simp [weightedPick, h, he]⟩

lemma listMin_cons (x y : ℚ) (t : List ℚ) :
    listMin (x :: y :: t) = min x (listMin (y :: t)) := rfl

lemma listMin_le : ∀ (l : List ℚ) (x : ℚ), x ∈ l → listMin l ≤ x
  | [], x, h => absurd h (List.not_mem_nil x)
  | [y], x, h => by
      simp only [List.mem_singleton] at h
      simp [listMin, h]
  | y :: z :: t, x, h => by
      rcases List.mem_cons.mp h with h1 | h2
      · rw [h1, listMin_cons]
        exact min_le_left _ _
      · exact le_trans (by rw [listMin_cons]; exact min_le_right _ _)
          (listMin_le (z :: t) x h2)

/-- `np.argmin` returns an in-range index of the first occurrence of the
minimum: the indexed value is the minimum and every earlier value is strictly
larger. -/
lemma argminIdx_spec (x : ℚ) (t : List ℚ) :
    argminIdx (x :: t) < (x :: t).length ∧
    (x :: t).getD (argminIdx (x :: t)) 0 = listMin (x :: t) ∧
    ∀ k, k < argminIdx (x :: t) → listMin (x :: t) < (x :: t).getD k 0 := by
  induction t generalizing x with
  | nil =>
      refine ⟨by simp [argminIdx], by simp [argminIdx, listMin], ?_⟩
      intro k hk
      simp [argminIdx] at hk
  | cons y t' ih =>
      obtain ⟨ih1, ih2, ih3⟩ := ih y
      by_cases hx : x ≤ listMin (y :: t')
      · refine ⟨by simp [argminIdx, hx], ?_, ?_⟩
        · simp [argminIdx, hx, listMin_cons, min_eq_left hx]
        · intro k hk
          simp [argminIdx, hx] at hk
      · have hlt : listMin (y :: t') < x := lt_of_not_le hx
        refine ⟨?_, ?_, ?_⟩
        · simpa [argminIdx, hx, Nat.succ_lt_succ_iff] using ih1
        · simpa [argminIdx, hx, listMin_cons,
            min_eq_right (le_of_lt hlt)] using ih2
        · intro k hk
          rw [listMin_cons, min_eq_right (le_of_lt hlt)]
          cases k with
          | zero => simpa using hlt
          | succ j =>
              have hj : j < argminIdx (y :: t') := by
                simpa [argminIdx, hx, Nat.succ_lt_succ_iff] using hk
              simpa using ih3 j hj

/-- Whatever the weights and the draw, `_choose_next_node` returns one of the
available nodes. -/
lemma chooseNextNode_mem (dist pher : ℕ → ℕ → ℚ) (a : Ant) (r : ℚ)
    (h : a.availableNodes ≠ []) :
    a.chooseNextNode dist pher r ∈ a.availableNodes := by
  unfold Ant.chooseNextNode
  by_cases hz : (a.candidateWeights dist pher).sum = 0
  · rw [if_pos hz]
    cases hav : a.availableNodes with
    | nil => exact absurd hav h
    | cons x t =>
        have hlen : argminIdx ((x :: t).map (dist a.currentNode)) < (x :: t).length := by
          have h1 := (argminIdx_spec (dist a.currentNode x) (t.map (dist a.currentNode))).1
          simpa using h1
        rw [List.getD_eq_getElem _ _ hlen]
        exact List.getElem_mem hlen
  · rw [if_neg hz]
    have hzlen : (a.availableNodes.zip ((a.candidateWeights dist pher).map
        (fun p => p / (a.candidateWeights dist pher).sum))).length =
        a.availableNodes.length := by
      simp [Ant.candidateWeights]
    have hznn : a.availableNodes.zip ((a.candidateWeights dist pher).map
        (fun p => p / (a.candidateWeights dist pher).sum)) ≠ [] := by
      intro hnil
      rw [hnil] at hzlen
      exact h (List.length_eq_zero.mp hzlen.symm)
    obtain ⟨p, hp, he⟩ := weightedPick_mem _ r hznn
    rw [he]
    exact (List.of_mem_zip hp).1

lemma pathLen_cons_cons (dist : ℕ → ℕ → ℚ) (x y : ℕ) (t : List ℕ) :
    pathLen dist (x :: y :: t) = dist x y + pathLen dist (y :: t) := rfl

lemma head_opt_append_left {l : List ℕ} (l' : List ℕ) (h : l ≠ []) :
    (l ++ l').head? = l.head? := by
  cases l with
  | nil => exact absurd rfl h
  | cons a t => rfl

lemma getLastD_cons_cons (y z d : ℕ) (t : List ℕ) :
    (y :: z :: t).getLastD d = (z :: t).getLastD d := by
  simp [List.getLastD_eq_getLast?, List.getLast?_cons_cons]

/-- Appending one node to a nonempty path adds the connecting edge's length. -/
lemma pathLen_append_singleton (dist : ℕ → ℕ → ℚ) :
    ∀ (l : List ℕ), l ≠ [] → ∀ (x : ℕ),
      pathLen dist (l ++ [x]) = pathLen dist l + dist (l.getLastD 0) x
  | [], h, _ => absurd rfl h
  | [y], _, x => by simp [pathLen]
  | y :: z :: t, _, x => by
      have ih := pathLen_append_singleton dist (z :: t) (by simp) x
      show pathLen dist (y :: z :: (t ++ [x])) = _
      rw [pathLen_cons_cons, show z :: (t ++ [x]) = (z :: t) ++ [x] from rfl, ih,
        pathLen_cons_cons, getLastD_cons_cons]
      ring

/-- The loop invariant of `Ant.find_route`: the route is a nonempty duplicate-free
list of in-range nodes starting at the start node, the visited set is exactly
the set of route members, and `total_distance` is the length of the partial
path. -/
def AntInv (dist : ℕ → ℕ → ℚ) (a : Ant) : Prop :=
  a.route ≠ [] ∧ a.route.Nodup ∧ (∀ x ∈ a.route, x < a.num_nodes) ∧
  a.visited = a.route.toFinset ∧ a.route.head? = some a.start_node ∧
  a.total_distance = pathLen dist a.route

lemma length_le_of_nodup_bound (l : List ℕ) (n : ℕ) (hnd : l.Nodup)
    (hbound : ∀ x ∈ l, x < n) : l.length ≤ n := by
  have hsub : l.toFinset ⊆ Finset.range n := by
    intro x hx
    exact Finset.mem_range.mpr (hbound x (List.mem_toFinset.mp hx))
  have hc := Finset.card_le_card hsub
  rwa [List.toFinset_card_of_nodup hnd, Finset.card_range] at hc

/-- While the route is shorter than `num_nodes`, some node is still available. -/
lemma availableNodes_ne_nil (a : Ant) (hnd : a.route.Nodup)
    (hv : a.visited = a.route.toFinset)
    (hlt : a.route.length < a.num_nodes) : a.availableNodes ≠ [] := by
  intro hnil
  have hall : ∀ n ∈ List.range a.num_nodes, n ∈ a.visited := by
    intro n hn
    have h1 := List.filter_eq_nil_iff.mp hnil n hn
    simpa using h1
  have hsub : Finset.range a.num_nodes ⊆ a.route.toFinset := by
    intro n hn
    rw [← hv]
    exact hall n (List.mem_range.mpr (Finset.mem_range.mp hn))
  have hcard := Finset.card_le_card hsub
  rw [List.toFinset_card_of_nodup hnd, Finset.card_range] at hcard
  omega

/-- One loop iteration preserves the invariant and grows the route by exactly
one node (the chosen node is available, hence fresh and in range). -/
lemma step_spec (dist pher : ℕ → ℕ → ℚ) (a : Ant) (r : ℚ)
    (h : AntInv dist a) (hlt : a.route.length < a.num_nodes) :
    AntInv dist (a.step dist pher r) ∧
    (a.step dist pher r).route.length = a.route.length + 1 ∧
    (a.step dist pher r).num_nodes = a.num_nodes ∧
    (a.step dist pher r).start_node = a.start_node := by
  obtain ⟨hne, hnd, hbound, hv, hhead, htot⟩ := h
  have havail : a.availableNodes ≠ [] := availableNodes_ne_nil a hnd hv hlt
  have hmem : a.chooseNextNode dist pher r ∈ a.availableNodes :=
    chooseNextNode_mem dist pher a r havail
  set nxt := a.chooseNextNode dist pher r with hnxt
  have hnx : nxt ∈ List.range a.num_nodes ∧ nxt ∉ a.visited := by
    have h1 := hmem
    simp only [Ant.availableNodes, List.mem_filter, decide_eq_true_eq] at h1
    exact h1
  have hnxN : nxt < a.num_nodes := List.mem_range.mp hnx.1
  have hnr : nxt ∉ a.route := by
    intro hc
    exact hnx.2 (by rw [hv]; exact List.mem_toFinset.mpr hc)
  refine ⟨⟨by simp [Ant.step], ?_, ?_, ?_, ?_, ?_⟩,
    by simp [Ant.step], by simp [Ant.step], by simp [Ant.step]⟩
  · show (a.route ++ [nxt]).Nodup
    refine List.nodup_append.mpr ⟨hnd, List.nodup_singleton _, ?_⟩
    intro x hx hx'
    rw [List.mem_singleton.mp hx'] at hx
    exact hnr hx
  · show ∀ x ∈ a.route ++ [nxt], x < a.num_nodes
    intro x hx
    rcases List.mem_append.mp hx with h1 | h2
    · exact hbound x h1
    · rw [List.mem_singleton.mp h2]
      exact hnxN
  · show insert nxt a.visited = (a.route ++ [nxt]).toFinset
    rw [hv, List.toFinset_append]
    ext y
    simp [or_comm]
  · show (a.route ++ [nxt]).head? = some a.start_node
    rw [head_opt_append_left _ hne]
    exact hhead
  · show a.total_distance + dist a.currentNode nxt = pathLen dist (a.route ++ [nxt])
    rw [htot, pathLen_append_singleton dist a.route hne nxt]
    rfl

/-- The route-construction loop preserves the invariant and runs until the
route holds `min num_nodes (initial length + fuel)` nodes; `num_nodes` and
`start_node` are untouched. -/
lemma findRouteLoop_spec (dist pher : ℕ → ℕ → ℚ) (rng : ℕ → ℚ) :
    ∀ (fuel k : ℕ) (a : Ant), AntInv dist a →
      AntInv dist (Ant.findRouteLoop dist pher rng fuel k a) ∧
      (Ant.findRouteLoop dist pher rng fuel k a).route.length =
        min a.num_nodes (a.route.length + fuel) ∧
      (Ant.findRouteLoop dist pher rng fuel k a).num_nodes = a.num_nodes ∧
      (Ant.findRouteLoop dist pher rng fuel k a).start_node = a.start_node
  | 0, k, a, h => by
      have hle : a.route.length ≤ a.num_nodes :=
        length_le_of_nodup_bound a.route a.num_nodes h.2.1 h.2.2.1
      refine ⟨h, ?_, rfl, rfl⟩
      show a.route.length = min a.num_nodes (a.route.length + 0)
      omega
  | fuel + 1, k, a, h => by
      by_cases hlt : a.route.length < a.num_nodes
      · obtain ⟨h', hl', hn', hs'⟩ := step_spec dist pher a (rng k) h hlt
        obtain ⟨ih1, ih2, ih3, ih4⟩ :=
          findRouteLoop_spec dist pher rng fuel (k + 1) (a.step dist pher (rng k)) h'
        have heq : Ant.findRouteLoop dist pher rng (fuel + 1) k a =
            Ant.findRouteLoop dist pher rng fuel (k + 1) (a.step dist pher (rng k)) := by
          rw [show Ant.findRouteLoop dist pher rng (fuel + 1) k a =
            if a.route.length < a.num_nodes then
              Ant.findRouteLoop dist pher rng fuel (k + 1) (a.step dist pher (rng k))
            else a from rfl, if_pos hlt]
        rw [heq]
        refine ⟨ih1, ?_, by rw [ih3, hn'], by rw [ih4, hs']⟩
        rw [ih2, hl', hn']
        omega
      · have hle : a.route.length ≤ a.num_nodes :=
          length_le_of_nodup_bound a.route a.num_nodes h.2.1 h.2.2.1
        have heq : Ant.findRouteLoop dist pher rng (fuel + 1) k a = a := by
          rw [show Ant.findRouteLoop dist pher rng (fuel + 1) k a =
            if a.route.length < a.num_nodes then
              Ant.findRouteLoop dist pher rng fuel (k + 1) (a.step dist pher (rng k))
            else a from rfl, if_neg hlt]
        rw [heq]
        refine ⟨h, ?_, rfl, rfl⟩
        omega

/-- After `reset`, the invariant holds provided the start node is in range. -/
lemma reset_inv (dist : ℕ → ℕ → ℚ) (a : Ant) (hs : a.start_node < a.num_nodes) :
    AntInv dist a.reset := by
  refine ⟨by simp [Ant.reset], by simp [Ant.reset], ?_, by simp [Ant.reset],
    by simp [Ant.reset], by simp [Ant.reset, pathLen]⟩
  intro x hx
  simp only [Ant.reset, List.mem_singleton] at hx
  show x < a.num_nodes
  rw [hx]
  exact hs

/-- C1: for `N ≥ 1` nodes and an in-range start node, every completed route has
length `N + 1`, its first `N` entries are a permutation of `0..N-1`, and its
last entry equals its first entry (the start node) — whatever the distance
matrix, pheromone matrix and random draws. -/
theorem find_route_valid (dist pher : ℕ → ℕ → ℚ) (rng : ℕ → ℚ)
    (start N alpha beta : ℕ) (hN : 1 ≤ N) (hs : start < N) :
    ((Ant.init start N alpha beta).findRoute dist pher rng).route.length = N + 1 ∧
    (((Ant.init start N alpha beta).findRoute dist pher rng).route.take N).Perm
      (List.range N) ∧
    ((Ant.init start N alpha beta).findRoute dist pher rng).route.head? =
      some start ∧
    ((Ant.init start N alpha beta).findRoute dist pher rng).route.getLast? =
      some start := by
  have hinv0 : AntInv dist (Ant.init start N alpha beta).reset :=
    reset_inv dist _ hs
  obtain ⟨hinv, hlen, hn, hsn⟩ :=
    findRouteLoop_spec dist pher rng N 0 (Ant.init start N alpha beta).reset hinv0
  set a1 := Ant.findRouteLoop dist pher rng N 0 (Ant.init start N alpha beta).reset
    with ha1
  obtain ⟨hne, hnd, hbound, hv, hhead, htot⟩ := hinv
  have hnN : a1.num_nodes = N := by
    rw [hn]
    rfl
  have hlen1 : a1.route.length = N := by
    have h1 : (Ant.init start N alpha beta).reset.route.length = 1 := rfl
    have h2 : (Ant.init start N alpha beta).reset.num_nodes = N := rfl
    rw [h1, h2] at hlen
    omega
  have hroute : ((Ant.init start N alpha beta).findRoute dist pher rng).route =
      a1.route ++ [start] := rfl
  refine ⟨?_, ?_, ?_, ?_⟩
  · rw [hroute]
    simp [hlen1]
  · have htake : (a1.route ++ [start]).take N = a1.route := by
      rw [← hlen1]
      exact List.take_left _ _
    rw [hroute, htake]
    have hfin : a1.route.toFinset = Finset.range N := by
      have hsub : a1.route.toFinset ⊆ Finset.range N := by
        intro x hx
        exact Finset.mem_range.mpr (hnN ▸ hbound x (List.mem_toFinset.mp hx))
      refine (Finset.eq_of_subset_of_card_le hsub ?_)
      rw [List.toFinset_card_of_nodup hnd, hlen1, Finset.card_range]
    refine List.perm_of_nodup_nodup_toFinset_eq hnd (List.nodup_range N) ?_
    rw [hfin]
    ext x
    simp
  · rw [hroute, head_opt_append_left _ hne, hhead, hsn]
    rfl
  · rw [hroute]
    exact List.getLast?_concat _
/-- Witness for `find_route_valid` on a concrete 3-node instance. -/
theorem find_route_valid_witness :
    ((Ant.init 0 3 1 2).findRoute exDist (fun _ _ => 0) (fun _ => 1/2)).route.length
      = 3 + 1 ∧
    (((Ant.init 0 3 1 2).findRoute exDist (fun _ _ => 0) (fun _ => 1/2)).route.take 3).Perm
      (List.range 3) ∧
    ((Ant.init 0 3 1 2).findRoute exDist (fun _ _ => 0) (fun _ => 1/2)).route.head? =
      some 0 ∧
    ((Ant.init 0 3 1 2).findRoute exDist (fun _ _ => 0) (fun _ => 1/2)).route.getLast? =
      some 0 :=
  find_route_valid exDist (fun _ _ => 0) (fun _ => 1/2) 0 3 1 2
    (by norm_num) (by norm_num)

/-- C10: when the distance matrix has a zero diagonal, the `total_distance`
accumulated by `Ant.find_route` equals `Problem.get_length` of the completed
route. -/
theorem total_distance_matches_get_length (dist pher : ℕ → ℕ → ℚ) (rng : ℕ → ℚ)
    (start N alpha beta : ℕ) (hdiag : ∀ i, dist i i = 0) (hN : 1 ≤ N)
    (hs : start < N) :
    ((Ant.init start N alpha beta).findRoute dist pher rng).total_distance =
      get_length dist ((Ant.init start N alpha beta).findRoute dist pher rng).route := by
  have hinv0 : AntInv dist (Ant.init start N alpha beta).reset :=
    reset_inv dist _ hs
  obtain ⟨hinv, hlen, hn, hsn⟩ :=
    findRouteLoop_spec dist pher rng N 0 (Ant.init start N alpha beta).reset hinv0
  set a1 := Ant.findRouteLoop dist pher rng N 0 (Ant.init start N alpha beta).reset
    with ha1
  obtain ⟨hne, hnd, hbound, hv, hhead, htot⟩ := hinv
  have hroute : ((Ant.init start N alpha beta).findRoute dist pher rng).route =
      a1.route ++ [start] := rfl
  have htotal : ((Ant.init start N alpha beta).findRoute dist pher rng).total_distance =
      a1.total_distance + dist (a1.route.getLastD 0) start := rfl
  have hclose : (a1.route ++ [start]).getLastD 0 = start := by
    rw [List.getLastD_eq_getLast?, List.getLast?_concat]
    rfl
  have hheadD : (a1.route ++ [start]).headD 0 = start := by
    have h1 : (a1.route ++ [start]).head? = some start := by
      rw [head_opt_append_left _ hne, hhead, hsn]
      rfl
    rw [List.headD_eq_head?_getD, h1]
    rfl
  rw [htotal, hroute, htot, ← pathLen_append_singleton dist a1.route hne start]
  have hnn : a1.route ++ [start] ≠ [] := by simp
  rw [get_length, if_neg hnn, hclose, hheadD, hdiag start]
  show pathLen dist (a1.route ++ [start]) = pathLen dist (a1.route ++ [start]) + 0
  ring

/-- Witness for `total_distance_matches_get_length` on a concrete instance. -/
theorem total_distance_matches_get_length_witness :
    ((Ant.init 0 3 1 2).findRoute exDist (fun _ _ => 0) (fun _ => 1/2)).total_distance =
      get_length exDist
        ((Ant.init 0 3 1 2).findRoute exDist (fun _ _ => 0) (fun _ => 1/2)).route :=
  total_distance_matches_get_length exDist (fun _ _ => 0) (fun _ => 1/2) 0 3 1 2
    (fun i => by simp [exDist]) (by norm_num) (by norm_num)

lemma argminIdx_spec' (l : List ℚ) (hl : l ≠ []) :
    argminIdx l < l.length ∧ l.getD (argminIdx l) 0 = listMin l ∧
    ∀ k, k < argminIdx l → listMin l < l.getD k 0 := by
  cases l with
  | nil => exact absurd rfl hl
  | cons x t => exact argminIdx_spec x t

/-- `items[np.argmin(items.map f)]` on a strictly ascending list: the result is
a member, attains the minimum of `f`, and is the least-indexed (hence least)
member among the minimizers. -/
lemma argmin_select (f : ℕ → ℚ) (L : List ℕ) (hne : L ≠ [])
    (hs : L.Pairwise (· < ·)) :
    L.getD (argminIdx (L.map f)) 0 ∈ L ∧
    (∀ j ∈ L, f (L.getD (argminIdx (L.map f)) 0) ≤ f j) ∧
    (∀ j ∈ L, f j = f (L.getD (argminIdx (L.map f)) 0) →
      L.getD (argminIdx (L.map f)) 0 ≤ j) := by
  obtain ⟨hi, hmin, hfirst⟩ := argminIdx_spec' (L.map f) (by simpa using hne)
  set i := argminIdx (L.map f) with hidef
  have hiL : i < L.length := by simpa using hi
  have hgd : L.getD i 0 ∈ L := by
    rw [List.getD_eq_getElem _ _ hiL]
    exact List.getElem_mem hiL
  have hfi : f (L.getD i 0) = listMin (L.map f) := by
    have h1 := hmin
    rw [List.getD_eq_getElem _ _ hi, List.getElem_map] at h1
    rw [List.getD_eq_getElem _ _ hiL]
    exact h1
  refine ⟨hgd, ?_, ?_⟩
  · intro j hj
    rw [hfi]
    exact listMin_le _ _ (List.mem_map_of_mem f hj)
  · intro j hj heq
    by_contra hcon
    push_neg at hcon
    obtain ⟨kj, hkj, hkeq⟩ := List.getElem_of_mem hj
    have hkeqD : L.getD kj 0 = j := by
      rw [List.getD_eq_getElem _ _ hkj]
      exact hkeq
    have hkilt : kj < i := by
      rcases lt_trichotomy kj i with h | h | h
      · exact h
      · exfalso
        rw [← hkeqD, h] at hcon
        exact lt_irrefl _ hcon
      · exfalso
        have hlt := (List.pairwise_iff_get.mp hs) ⟨i, hiL⟩ ⟨kj, hkj⟩
          (Fin.mk_lt_mk.mpr h)
        have e1 : L.get ⟨i, hiL⟩ = L.getD i 0 := by
          rw [List.get_eq_getElem]
          exact (List.getD_eq_getElem _ _ hiL).symm
        have e2 : L.get ⟨kj, hkj⟩ = L.getD kj 0 := by
          rw [List.get_eq_getElem]
          exact (List.getD_eq_getElem _ _ hkj).symm
        rw [e1, e2, hkeqD] at hlt
        exact lt_asymm hcon hlt
    have h2 := hfirst kj hkilt
    have hkjm : kj < (L.map f).length := by simpa using hkj
    have h3 : (L.map f).getD kj 0 = f j := by
      rw [List.getD_eq_getElem _ _ hkjm, List.getElem_map]
      exact congrArg f hkeq
    rw [h3, heq, hfi] at h2
    exact lt_irrefl _ h2

/-- `available_nodes` is a filtered `range`, hence strictly ascending. -/
lemma availableNodes_sorted (a : Ant) : a.availableNodes.Pairwise (· < ·) :=
  (List.sorted_lt_range a.num_nodes).filter _

/-- C7: whenever the candidate weights sum to zero, `_choose_next_node` ignores
the random draw and deterministically returns the available node nearest to the
current node by raw distance, breaking distance ties in favor of the lowest
node index. -/
theorem fallback_deterministic (dist pher : ℕ → ℕ → ℚ) (a : Ant) (r r' : ℚ)
    (hne : a.availableNodes ≠ [])
    (hz : (a.candidateWeights dist pher).sum = 0) :
    a.chooseNextNode dist pher r ∈ a.availableNodes ∧
    a.chooseNextNode dist pher r = a.chooseNextNode dist pher r' ∧
    (∀ j ∈ a.availableNodes,
      dist a.currentNode (a.chooseNextNode dist pher r) ≤ dist a.currentNode j) ∧
    (∀ j ∈ a.availableNodes,
      dist a.currentNode j = dist a.currentNode (a.chooseNextNode dist pher r) →
        a.chooseNextNode dist pher r ≤ j) := by
  have hch : ∀ s : ℚ, a.chooseNextNode dist pher s =
      a.availableNodes.getD (argminIdx (a.availableNodes.map (dist a.currentNode))) 0 := by
    intro s
    unfold Ant.chooseNextNode
    rw [if_pos hz]
  obtain ⟨h1, h2, h3⟩ :=
    argmin_select (dist a.currentNode) a.availableNodes hne (availableNodes_sorted a)
  refine ⟨?_, ?_, ?_, ?_⟩
  · rw [hch r]
    exact h1
  · rw [hch r, hch r']
  · intro j hj
    rw [hch r]
    exact h2 j hj
  · intro j hj heq
    rw [hch r] at heq ⊢
    exact h3 j hj heq

/-- Witness for `fallback_deterministic`: three nodes, uniformly zero pheromone
(so every weight is zero), ant at node 0 with nodes 1 and 2 available. -/
theorem fallback_deterministic_witness :
    (Ant.init 0 3 1 2).chooseNextNode exDist (fun _ _ => 0) (1/2) ∈
      (Ant.init 0 3 1 2).availableNodes ∧
    (Ant.init 0 3 1 2).chooseNextNode exDist (fun _ _ => 0) (1/2) =
      (Ant.init 0 3 1 2).chooseNextNode exDist (fun _ _ => 0) (1/3) ∧
    (∀ j ∈ (Ant.init 0 3 1 2).availableNodes,
      exDist (Ant.init 0 3 1 2).currentNode
          ((Ant.init 0 3 1 2).chooseNextNode exDist (fun _ _ => 0) (1/2)) ≤
        exDist (Ant.init 0 3 1 2).currentNode j) ∧
    (∀ j ∈ (Ant.init 0 3 1 2).availableNodes,
      exDist (Ant.init 0 3 1 2).currentNode j =
          exDist (Ant.init 0 3 1 2).currentNode
            ((Ant.init 0 3 1 2).chooseNextNode exDist (fun _ _ => 0) (1/2)) →
        (Ant.init 0 3 1 2).chooseNextNode exDist (fun _ _ => 0) (1/2) ≤ j) :=
  fallback_deterministic exDist (fun _ _ => 0) (Ant.init 0 3 1 2) (1/2) (1/3)
    (by decide)
    (by
      apply List.sum_eq_zero
      intro x hx
      simp only [Ant.candidateWeights, List.mem_map] at hx
      obtain ⟨j, hj, hxe⟩ := hx
      rw [← hxe]
      simp [selectionWeight, Ant.init])

end ACO
